import Mathlib

/-!
Verification of the control-flow-graph builder and structured emitter of a
Move-bytecode-to-Miden compiler.  The Rust sources (`src/cfg.rs`,
`src/compiler.rs`) are shallowly embedded: `BTreeSet<usize>` becomes a
sorted duplicate-free `List Nat`, `BTreeMap<Label, _>` becomes an
association list ordered by the source's `Label` ordering, fallible code
returns `Except`, and the emitter's general recursion is indexed by fuel.
-/

/-- The Move bytecodes recognized by the compiler (`move_binary_format`'s
`Bytecode`, restricted to the constructors the sources mention).  Offsets
and indices are `Nat`. -/
inductive Bytecode where
  | BrTrue (x : Nat)
  | BrFalse (x : Nat)
  | Branch (x : Nat)
  | Ret
  | Abort
  | LdU32 (x : Nat)
  | LdU64 (x : Nat)
  | StLoc (x : Nat)
  | CopyLoc (x : Nat)
  | MoveLoc (x : Nat)
  | Add
  | Sub
  | Mul
  | Div
  | Mod
  | Le
  | Eq
  | Neq
  | Pop
  | Call (x : Nat)
deriving DecidableEq

/-- `BrTrue`, `BrFalse` or `Branch` (the branching bytecodes). -/
def isBranch : Bytecode → Bool
  | .BrTrue _ | .BrFalse _ | .Branch _ => true
  | _ => false

/-- `Bytecode::is_conditional_branch`: `BrTrue` or `BrFalse`. -/
def isConditionalBranch : Bytecode → Bool
  | .BrTrue _ | .BrFalse _ => true
  | _ => false

/-- Labels for nodes in the control flow graph (`cfg.rs`, `Label`). -/
inductive Label where
  | Entry
  | Point (i : Nat)
  | Exit
deriving DecidableEq

/-- `usize::cmp` on `Nat`. -/
def natCmp (x y : Nat) : Ordering :=
  if x < y then .lt else if x = y then .eq else .gt

/-- `Label::cmp_inner`: `Entry` is least, `Exit` is greatest, points are
ordered by index. -/
def Label.cmpInner (a b : Label) : Ordering :=
  if a = b then .eq
  else
    match a with
    | .Entry => .lt
    | .Exit => .gt
    | .Point x =>
      match b with
      | .Entry => .gt
      | .Exit => .lt
      | .Point y => natCmp x y

/-- `Label::new`: index 0 is the entry point, any other index is a point. -/
def Label.new (index : Nat) : Label :=
  if index = 0 then .Entry else .Point index

/-- Outgoing edge of a block (`cfg.rs`, `OutgoingEdge`). -/
inductive OutgoingEdge where
  | If (true_case false_case : Label)
  | Pass (next : Label)
  | LoopBack (header : Label)
  | WhileTrue (body_start after : Label)
  | WhileFalse (body_start after : Label)
deriving DecidableEq

/-- Errors of the CFG builder (`cfg.rs`, `CfgError`). -/
inductive CfgError where
  | BranchToBranch
  | ConditionalJumpBack
  | BranchOutOfBounds
  | SelfBranch
  | RepeatConditionalBranch
  | UnexpectedBlockEnd
  | InvalidLoopHeader
deriving DecidableEq

/-- A `BTreeMap<Label, β>` as an association list kept ordered by
`Label.cmpInner`. -/
abbrev LMap (β : Type) := List (Label × β)

/-- Map lookup (`BTreeMap::get`). -/
def lmapLookup {β : Type} (k : Label) : LMap β → Option β
  | [] => none
  | (k₁, v) :: rest => if k = k₁ then some v else lmapLookup k rest

/-- Map insertion keeping the key order (`BTreeMap::insert`; an existing
entry for the key is replaced). -/
def lmapInsert {β : Type} (k : Label) (v : β) : LMap β → LMap β
  | [] => [(k, v)]
  | (k₁, v₁) :: rest =>
    match Label.cmpInner k k₁ with
    | .lt => (k, v) :: (k₁, v₁) :: rest
    | .eq => (k, v) :: rest
    | .gt => (k₁, v₁) :: lmapInsert k v rest

/-- Map removal (`BTreeMap::remove`). -/
def lmapErase {β : Type} (k : Label) : LMap β → LMap β
  | [] => []
  | (k₁, v₁) :: rest =>
    if k = k₁ then lmapErase k rest else (k₁, v₁) :: lmapErase k rest

/-- `BTreeMap::contains_key`. -/
def lmapContains {β : Type} (k : Label) (m : LMap β) : Bool :=
  (lmapLookup k m).isSome

/-- `BTreeSet<usize>::insert`: sorted duplicate-free insertion. -/
def insertSorted (x : Nat) : List Nat → List Nat
  | [] => [x]
  | y :: rest =>
    if x < y then x :: y :: rest
    else if x = y then y :: rest
    else y :: insertSorted x rest

/-- `BTreeSet::union` collected in ascending order. -/
def natUnion (d o : List Nat) : List Nat :=
  o.foldl (fun acc x => insertSorted x acc) d

/-- `validate_unconditional_jump` (`cfg.rs`). -/
def validate_unconditional_jump (dest index : Nat) (bytecode : List Bytecode) :
    Except CfgError Unit :=
  if dest = index then .error .SelfBranch
  else
    match bytecode.get? dest with
    | none => .error .BranchOutOfBounds
    | some c => if isBranch c then .error .BranchToBranch else .ok ()

/-- `validate_conditional_jump` (`cfg.rs`). -/
def validate_conditional_jump (dest index : Nat) (bytecode : List Bytecode) :
    Except CfgError Unit :=
  if dest < index then .error .ConditionalJumpBack
  else if (bytecode.get? (index + 1)).any (fun b => isConditionalBranch b) then
    .error .RepeatConditionalBranch
  else validate_unconditional_jump dest index bytecode

/-- First pass of `Cfg::new`: walk the bytecode from index `i`, validating
every branch and accumulating the branch destinations and branch origins
(two ordered sets). -/
def scanBranchesAux (bytecode : List Bytecode) :
    List Bytecode → Nat → List Nat → List Nat →
    Except CfgError (List Nat × List Nat)
  | [], _, dests, origins => .ok (dests, origins)
  | b :: rest, i, dests, origins =>
    match b with
    | .BrTrue x | .BrFalse x =>
      match validate_conditional_jump x i bytecode with
      | .error e => .error e
      | .ok _ =>
        scanBranchesAux bytecode rest (i + 1)
          (insertSorted (i + 1) (insertSorted x dests)) (insertSorted i origins)
    | .Branch x =>
      match validate_unconditional_jump x i bytecode with
      | .error e => .error e
      | .ok _ =>
        scanBranchesAux bytecode rest (i + 1)
          (insertSorted x dests) (insertSorted i origins)
    | _ => scanBranchesAux bytecode rest (i + 1) dests origins

/-- Consecutive pairs of a list (`iter().zip(iter().skip(1))`). -/
def consecPairs : List Nat → List (Nat × Nat)
  | [] => []
  | [_] => []
  | a :: b :: rest => (a, b) :: consecPairs (b :: rest)

/-- `&bytecode[s..e]`. -/
def listSlice {α : Type} (l : List α) (s e : Nat) : List α :=
  (l.drop s).take (e - s)

/-- The `blocks` map of `Cfg::new`: for each consecutive pair `(s, e)` of
branch points with `s` not a branch origin, a block `[s..e)` labelled
`Label.new s`; finally the empty `Exit` block. -/
def buildBlocks (bytecode : List Bytecode) (points origins : List Nat) :
    LMap (List Bytecode) :=
  ((consecPairs points).filterMap fun p =>
    if p.1 ∈ origins then none
    else some (Label.new p.1, listSlice bytecode p.1 p.2))
  ++ [(Label.Exit, [])]

/-- One step of the BFS of `has_path`: push a successor at the back of the
queue unless it was already visited. -/
def pushIfNew (visited queue : List Label) (x : Label) : List Label :=
  if x ∈ visited then queue else queue ++ [x]

/-- The successor labels of an edge, in the order `has_path` pushes them. -/
def succsOfEdge : OutgoingEdge → List Label
  | .If t f => [t, f]
  | .LoopBack h => [h]
  | .Pass n => [n]
  | .WhileTrue b a => [b, a]
  | .WhileFalse b a => [b, a]

/-- The BFS loop of `has_path`, fuelled: pop a label, mark it visited,
succeed if it is the target, otherwise enqueue its unvisited successors. -/
def hasPathAux (edges : LMap OutgoingEdge) (target : Label) :
    Nat → List Label → List Label → Bool
  | 0, _, _ => false
  | _ + 1, _, [] => false
  | fuel + 1, visited, label :: queue =>
    let visited := if label ∈ visited then visited else label :: visited
    if label = target then true
    else
      let queue :=
        match lmapLookup label edges with
        | some e => (succsOfEdge e).foldl (fun q s => pushIfNew visited q s) queue
        | none => queue
      hasPathAux edges target fuel visited queue

/-- `has_path` (`cfg.rs`): BFS from `start` to `target` over `edges`.  The
fuel bounds the number of queue pops and strictly dominates the total pops
of the source's unbounded BFS, so the two agree on every input.  Bound:
every queue entry is pushed while its label is unvisited, so the chain of
pushes leading to an entry (entry, the popped entry that pushed it, that
entry's pusher, ...) never repeats a label — a repeated label would already
have been marked visited by the chain's earlier pop before the later push
happened, and the push checks the visited set.  Each entry is therefore
determined by a label-distinct path from `start` through successor slots
(at most two slots per edge, interior path nodes are distinct keys of
`edges`), and there are fewer than `2 ^ (edges.length + 1)` such paths,
including the duplicate-`If` chains (`If x x` edges from a
`BrTrue d; Branch d` pair) whose queue occupancy doubles per level.  Total
pops are thus below `2 ^ (edges.length + 1) + 1 < 2 ^ (edges.length + 3)`,
so the fuel never runs out before the source BFS terminates. -/
def has_path (edges : LMap OutgoingEdge) (start target : Label) : Bool :=
  hasPathAux edges target (2 ^ (edges.length + 3)) [] [start]

/-- The fall-through successor of a conditional branch at index `i`: the
destination of an immediately following `Branch`, otherwise `i + 1`
(`cfg.rs`, the `bytecode.get(i + 1)` match inside `BrTrue` / `BrFalse`). -/
def condFallthrough (bytecode : List Bytecode) (i : Nat) : Label :=
  match bytecode.get? (i + 1) with
  | some (.Branch y) => Label.new y
  | _ => Label.new (i + 1)

/-- The block-head handling at the top of the edge-classifier loop of
`Cfg::new`: on entering a new block, record an implicit `Pass` from any
still-open block and open the new one. -/
def enterBlock (blocks : LMap (List Bytecode)) (i : Nat)
    (st : LMap OutgoingEdge × Option Label) : LMap OutgoingEdge × Option Label :=
  if lmapContains (Label.new i) blocks then
    match st.2 with
    | some l => (lmapInsert l (.Pass (Label.new i)) st.1, some (Label.new i))
    | none => (st.1, some (Label.new i))
  else st

/-- The instruction handling of the edge-classifier loop of `Cfg::new`,
for the open block `l` at index `i` holding instruction `b`. -/
def classifyInstr (bytecode : List Bytecode) (i : Nat) (b : Bytecode)
    (edges0 : LMap OutgoingEdge) (l : Label) :
    Except CfgError (LMap OutgoingEdge × Option Label) :=
  match b with
  | .BrTrue x =>
    .ok (lmapInsert l (.If (Label.new x) (condFallthrough bytecode i)) edges0, none)
  | .BrFalse x =>
    .ok (lmapInsert l (.If (condFallthrough bytecode i) (Label.new x)) edges0, none)
  | .Branch x =>
    if x < i then
      match lmapLookup (Label.new x) edges0 with
      | some (.If true_case false_case) =>
        match has_path (lmapErase (Label.new x) edges0) true_case l,
              has_path (lmapErase (Label.new x) edges0) false_case l with
        | true, true => .error .InvalidLoopHeader
        | false, false => .error .InvalidLoopHeader
        | true, false =>
          .ok (lmapInsert l (.LoopBack (Label.new x))
                (lmapInsert (Label.new x) (.WhileTrue true_case false_case)
                  (lmapErase (Label.new x) edges0)), none)
        | false, true =>
          .ok (lmapInsert l (.LoopBack (Label.new x))
                (lmapInsert (Label.new x) (.WhileFalse false_case true_case)
                  (lmapErase (Label.new x) edges0)), none)
      | _ => .error .InvalidLoopHeader
    else .ok (lmapInsert l (.Pass (Label.new x)) edges0, none)
  | .Abort | .Ret => .ok (lmapInsert l (.Pass .Exit) edges0, none)
  | _ => .ok (edges0, some l)

/-- One iteration of the edge-classifier loop of `Cfg::new` at index `i`
holding instruction `b`.  The state is the partial `edges` map plus the
label of the currently open block (`current_label`). -/
def edgeStep (bytecode : List Bytecode) (blocks : LMap (List Bytecode))
    (i : Nat) (b : Bytecode) (st : LMap OutgoingEdge × Option Label) :
    Except CfgError (LMap OutgoingEdge × Option Label) :=
  match enterBlock blocks i st with
  | (st1, none) => .ok (st1, none)
  | (st1, some l) => classifyInstr bytecode i b st1 l

/-- The edge-classifier loop of `Cfg::new` from index `i` on. -/
def edgesScanAux (bytecode : List Bytecode) (blocks : LMap (List Bytecode)) :
    List Bytecode → Nat → LMap OutgoingEdge × Option Label →
    Except CfgError (LMap OutgoingEdge × Option Label)
  | [], _, st => .ok st
  | b :: rest, i, st =>
    match edgeStep bytecode blocks i b st with
    | .error e => .error e
    | .ok st' => edgesScanAux bytecode blocks rest (i + 1) st'

/-- The control flow graph (`cfg.rs`, `Cfg`): blocks and directed outgoing
edges, both keyed by label. -/
structure Cfg where
  blocks : LMap (List Bytecode)
  edges : LMap OutgoingEdge
deriving DecidableEq

/-- `Cfg::new` (`cfg.rs`): validate and collect branch points, cut the
bytecode into blocks, then classify one outgoing edge per block; a still
open block at the end exits the function. -/
def Cfg.new (bytecode : List Bytecode) : Except CfgError Cfg :=
  match scanBranchesAux bytecode bytecode 0
      (insertSorted bytecode.length (insertSorted 0 [])) [] with
  | .error e => .error e
  | .ok (dests, origins) =>
    match edgesScanAux bytecode
        (buildBlocks bytecode (natUnion dests origins) origins)
        bytecode 0 ([], none) with
    | .error e => .error e
    | .ok (edges, current) =>
      match current with
      | some l =>
        .ok ⟨buildBlocks bytecode (natUnion dests origins) origins,
             lmapInsert l (.Pass .Exit) edges⟩
      | none =>
        .ok ⟨buildBlocks bytecode (natUnion dests origins) origins, edges⟩

/-- All labels in successor position of an edge are keys of `blocks`
(spec: "Every label appearing in any edge's successor position is a key in
`blocks`"). -/
def edgeSuccIn (blocks : LMap (List Bytecode)) : OutgoingEdge → Prop
  | .Pass next => lmapContains next blocks = true
  | .If t f => lmapContains t blocks = true ∧ lmapContains f blocks = true
  | .LoopBack h => lmapContains h blocks = true
  | .WhileTrue b a => lmapContains b blocks = true ∧ lmapContains a blocks = true
  | .WhileFalse b a => lmapContains b blocks = true ∧ lmapContains a blocks = true

/-- The Miden instructions the opcode translator produces
(`miden_assembly::ast::Instruction`, restricted to the used arms). -/
inductive Instr where
  | Add
  | Sub
  | Mul
  | U32Div
  | U32Mod
  | PushU32 (x : Nat)
  | Eq
  | Drop
  | Assertz
  | Not
  | ExecLocal (i : Nat)
deriving DecidableEq

/-- A Miden AST node (`miden_assembly::ast::Node`): an instruction, an
if-else with two bodies, or a while loop.  A `CodeBody` is a node list. -/
inductive Node where
  | instruction (i : Instr)
  | IfElse (true_case false_case : List Node)
  | While (body : List Node)

/-- Failures of the compilation stage (`compiler.rs` surfaces them through
`anyhow`); `branchingOpcode` models the `unreachable!` panic of
`compile_body`, and `outOfFuel` is the artefact of fuelling the emitter's
recursion. -/
inductive CompileError where
  | cfgError (e : CfgError)
  | missingFunctionHandle
  | missingBlock
  | missingEdge
  | branchingOpcode
  | u64TooLarge
  | unimplementedOpcode
  | outOfFuel
deriving DecidableEq

/-- A signature is opaque to the claims under study; its tokens are
abstracted to `Nat`. -/
abbrev Signature := List Nat

/-- `compiler.rs`, `struct Function`: name and signatures of a module
function. -/
structure MFunction where
  name : String
  params : Signature
  locals : Signature
deriving DecidableEq

/-- `compiler.rs`, `struct CompilerState`: the constant pool (entries
opaque here) and the function table. -/
structure CompilerState where
  constants : List Nat
  functions : List MFunction
deriving DecidableEq

/-- `compile_body` (`compiler.rs`): translate non-branch bytecodes one by
one, appending to `result`; a branching bytecode hits the `unreachable!`
arm, modelled as the `branchingOpcode` error. -/
def compile_body (state : CompilerState) :
    List Bytecode → List Node → Except CompileError (List Node)
  | [], result => .ok result
  | c :: rest, result =>
    match c with
    | .Add => compile_body state rest (result ++ [.instruction .Add])
    | .Sub => compile_body state rest (result ++ [.instruction .Sub])
    | .Mul => compile_body state rest (result ++ [.instruction .Mul])
    | .Div => compile_body state rest (result ++ [.instruction .U32Div])
    | .Mod => compile_body state rest (result ++ [.instruction .U32Mod])
    | .LdU32 x => compile_body state rest (result ++ [.instruction (.PushU32 x)])
    | .LdU64 x =>
      if x ≤ 4294967295 then
        compile_body state rest (result ++ [.instruction (.PushU32 x)])
      else .error .u64TooLarge
    | .Eq => compile_body state rest (result ++ [.instruction .Eq])
    | .Pop => compile_body state rest (result ++ [.instruction .Drop])
    | .MoveLoc _ => compile_body state rest result
    | .Ret => compile_body state rest result
    | .Abort =>
      compile_body state rest
        (result ++ [.instruction .Drop, .instruction (.PushU32 1), .instruction .Assertz])
    | .Call index =>
      match state.functions.get? index with
      | none => .error .missingFunctionHandle
      | some _ => compile_body state rest (result ++ [.instruction (.ExecLocal index)])
    | .BrFalse _ | .BrTrue _ | .Branch _ => .error .branchingOpcode
    | _ => .error .unimplementedOpcode

/-- One expansion round of a forward-reachability closure over the edge
map: add every successor of every member. -/
def expandOnce (edges : LMap OutgoingEdge) (s : List Label) : List Label :=
  s.foldl
    (fun acc l =>
      match lmapLookup l edges with
      | some e => (succsOfEdge e).foldl (fun acc2 s2 => if s2 ∈ acc2 then acc2 else acc2 ++ [s2]) acc
      | none => acc)
    s

/-- Modelled from the spec: the labels reachable from `start` over `edges`
(the join finder of spec section 4.4 searches from each side by BFS; the
closure stabilises within `2 * edges.length + 2` rounds because each round
either adds a label or is already the fixpoint). -/
def reachableSet (edges : LMap OutgoingEdge) (start : Label) : List Label :=
  (List.range (2 * edges.length + 2)).foldl (fun s _ => expandOnce edges s) [start]

/-- The least label of a list under `Label.cmpInner`. -/
def minLabel : List Label → Option Label
  | l => l.foldl
      (fun acc x =>
        match acc with
        | none => some x
        | some m => if Label.cmpInner x m = .lt then some x else acc)
      none

/-- Modelled from the spec: `first_common_ancestor` (the join finder, spec
section 4.4) is called by `compile_with_cfg` but its definition is not
among the provided sources.  Per the spec it returns the first label, in
ascending label order, reachable from both arguments, with `Exit` as the
always-valid fallback. -/
def first_common_ancestor (edges : LMap OutgoingEdge) (a b : Label) : Label :=
  let rb := reachableSet edges b
  match minLabel ((reachableSet edges a).filter (fun l => l ∈ rb)) with
  | some l => l
  | none => .Exit

/-- `compile_with_cfg` (`compiler.rs`), fuelled: emit the AST for the CFG
from `current_label` up to `target_label`.  The accessors `cfg.block` and
`cfg.edge` are not among the provided sources; they are modelled from the
spec's interface as lookups that fail on an absent key. -/
def compile_with_cfg : Nat → Cfg → CompilerState → Label → Label →
    Except CompileError (List Node)
  | 0, _, _, _, _ => .error .outOfFuel
  | fuel + 1, cfg, state, current_label, target_label =>
    if current_label = target_label then .ok []
    else
      match lmapLookup current_label cfg.blocks with
      | none => .error .missingBlock
      | some body =>
        match compile_body state body [] with
        | .error e => .error e
        | .ok nodes =>
          match lmapLookup current_label cfg.edges with
          | none => .error .missingEdge
          | some (.Pass next) =>
            match compile_with_cfg fuel cfg state next target_label with
            | .error e => .error e
            | .ok nxt => .ok (nodes ++ nxt)
          | some (.If true_case false_case) =>
            let new_target := first_common_ancestor cfg.edges true_case false_case
            match compile_with_cfg fuel cfg state true_case new_target with
            | .error e => .error e
            | .ok tc =>
              match compile_with_cfg fuel cfg state false_case new_target with
              | .error e => .error e
              | .ok fc => .ok (nodes ++ [.IfElse tc fc])
          | some (.LoopBack header) =>
            match lmapLookup header cfg.blocks with
            | none => .error .missingBlock
            | some hbody =>
              match compile_body state hbody nodes with
              | .error e => .error e
              | .ok nodes2 =>
                match lmapLookup header cfg.edges with
                | none => .error .missingEdge
                | some (.WhileFalse _ _) => .ok (nodes2 ++ [.instruction .Not])
                | some _ => .ok nodes2
          | some (.WhileTrue body_start after) =>
            match compile_with_cfg fuel cfg state body_start target_label with
            | .error e => .error e
            | .ok body =>
              match compile_with_cfg fuel cfg state after target_label with
              | .error e => .error e
              | .ok remainder => .ok (nodes ++ [.While body] ++ remainder)
          | some (.WhileFalse body_start after) =>
            match compile_with_cfg fuel cfg state body_start target_label with
            | .error e => .error e
            | .ok body =>
              match compile_with_cfg fuel cfg state after target_label with
              | .error e => .error e
              | .ok remainder =>
                .ok (nodes ++ [.instruction .Not, .While body] ++ remainder)

/-- `miden_assembly::ast::ProcedureAst`, restricted to the fields the
compiler sets (`docs` stays `none` and `start` is a default source
location, omitted here). -/
structure ProcedureAst where
  name : String
  docs : Option String
  num_locals : Nat
  body : List Node
  is_export : Bool

/-- A `CodeUnit` of a function definition: a locals signature index and
the bytecode. -/
structure CodeUnit where
  locals : Nat
  code : List Bytecode
deriving DecidableEq

/-- `move_binary_format`'s `FunctionDefinition`, restricted to the fields
`compiler.rs` reads: the function handle index, the entry flag, and the
optional code unit. -/
structure FunctionDefinition where
  function : Nat
  is_entry : Bool
  code : Option CodeUnit
deriving DecidableEq

/-- `empty_proc` (`compiler.rs`): a procedure with no locals and no body.
Parsing the name into a `ProcedureName` is done by the external assembler
and is modelled as the identity. -/
def empty_proc (name : String) : Except CompileError ProcedureAst :=
  .ok ⟨name, none, 0, [], false⟩

/-- `compile_function` (`compiler.rs`): look the handle up in the state,
return an empty procedure for a body-less function, otherwise build the
CFG and emit from `Entry` to `Exit`.  `fuel` bounds the emitter's
recursion depth. -/
def compile_function (fuel : Nat) (func_def : FunctionDefinition)
    (state : CompilerState) : Except CompileError ProcedureAst :=
  match state.functions.get? func_def.function with
  | none => .error .missingFunctionHandle
  | some function =>
    match func_def.code with
    | none => empty_proc function.name
    | some code =>
      match Cfg.new code.code with
      | .error e => .error (.cfgError e)
      | .ok cfg =>
        match compile_with_cfg fuel cfg state .Entry .Exit with
        | .error e => .error e
        | .ok body => .ok ⟨function.name, none, 0, body, false⟩

/-! ### Lemmas about the map and set primitives -/

theorem natCmp_eq_iff (x y : Nat) : natCmp x y = .eq ↔ x = y := by
  unfold natCmp
  by_cases h1 : x < y
  · rw [if_pos h1]
    constructor
    · intro h
      exact Ordering.noConfusion h
    · intro h
      omega
  · rw [if_neg h1]
    by_cases h2 : x = y
    · rw [if_pos h2]
      simp [h2]
    · rw [if_neg h2]
      constructor
      · intro h
        exact Ordering.noConfusion h
      · intro h
        exact absurd h h2

theorem cmpInner_eq_iff (a b : Label) : Label.cmpInner a b = .eq ↔ a = b := by
  unfold Label.cmpInner
  by_cases hab : a = b
  · rw [if_pos hab]
    simp [hab]
  · rw [if_neg hab]
    constructor
    · intro h
      exfalso
      cases a with
      | Entry => exact Ordering.noConfusion h
      | Exit => exact Ordering.noConfusion h
      | Point x =>
        cases b with
        | Entry => exact Ordering.noConfusion h
        | Exit => exact Ordering.noConfusion h
        | Point y => exact hab (congrArg Label.Point ((natCmp_eq_iff x y).mp h))
    · intro h
      exact absurd h hab

theorem cmpInner_ne_of_gt {a b : Label} (h : Label.cmpInner a b = .gt) : ¬ a = b := by
  intro he
  have h2 : Label.cmpInner a b = .eq := (cmpInner_eq_iff a b).mpr he
  rw [h2] at h
  exact Ordering.noConfusion h

theorem lmapLookup_insert {β : Type} (k k' : Label) (v : β) (m : LMap β) :
    lmapLookup k' (lmapInsert k v m) =
      if k' = k then some v else lmapLookup k' m := by
  induction m with
  | nil => by_cases h1 : k' = k <;> simp [lmapInsert, lmapLookup, h1]
  | cons p rest ih =>
    obtain ⟨k₁, v₁⟩ := p
    rcases hcmp : Label.cmpInner k k₁ with _ | _ | _
    · by_cases h1 : k' = k <;> simp [lmapInsert, lmapLookup, hcmp, h1]
    · have hk : k = k₁ := (cmpInner_eq_iff k k₁).mp hcmp
      subst hk
      by_cases h1 : k' = k <;> simp [lmapInsert, lmapLookup, hcmp, h1]
    · have hk : ¬ k = k₁ := cmpInner_ne_of_gt hcmp
      by_cases h1 : k' = k₁
      · subst h1
        have h2 : ¬ k' = k := fun h => hk h.symm
        simp [lmapInsert, lmapLookup, hcmp, h2]
      · simp [lmapInsert, lmapLookup, hcmp, h1, ih]

theorem lmapLookup_erase {β : Type} (k k' : Label) (m : LMap β) :
    lmapLookup k' (lmapErase k m) =
      if k' = k then none else lmapLookup k' m := by
  induction m with
  | nil => by_cases h1 : k' = k <;> simp [lmapErase, lmapLookup, h1]
  | cons p rest ih =>
    obtain ⟨k₁, v₁⟩ := p
    by_cases h1 : k = k₁
    · subst h1
      by_cases h2 : k' = k
      · subst h2
        simp [lmapErase, lmapLookup, ih]
      · simp [lmapErase, lmapLookup, h2, ih]
    · by_cases h2 : k' = k₁
      · subst h2
        have h3 : ¬ k' = k := fun h => h1 h.symm
        simp [lmapErase, lmapLookup, h1, h3, ih]
      · simp [lmapErase, lmapLookup, h1, h2, ih]

theorem lmapLookup_isSome_of_mem {β : Type} {k : Label} {v : β} {m : LMap β}
    (h : (k, v) ∈ m) : lmapContains k m = true := by
  induction m with
  | nil => cases h
  | cons p rest ih =>
    obtain ⟨k₁, v₁⟩ := p
    rcases List.mem_cons.mp h with h1 | h1
    · cases h1
      simp [lmapContains, lmapLookup]
    · unfold lmapContains lmapLookup
      split
      · simp
      · exact ih h1

theorem mem_of_lmapLookup {β : Type} {k : Label} {v : β} {m : LMap β}
    (h : lmapLookup k m = some v) : (k, v) ∈ m := by
  induction m with
  | nil => cases h
  | cons p rest ih =>
    obtain ⟨k₁, v₁⟩ := p
    unfold lmapLookup at h
    by_cases h1 : k = k₁
    · subst h1
      simp at h
      simp [h]
    · rw [if_neg h1] at h
      exact List.mem_cons_of_mem _ (ih h)

theorem mem_insertSorted (x y : Nat) (l : List Nat) :
    y ∈ insertSorted x l ↔ y = x ∨ y ∈ l := by
  induction l with
  | nil => simp [insertSorted]
  | cons z rest ih =>
    unfold insertSorted
    by_cases h1 : x < z
    · rw [if_pos h1]
      simp only [List.mem_cons]
    · rw [if_neg h1]
      by_cases h2 : x = z
      · rw [if_pos h2]
        subst h2
        simp only [List.mem_cons]
        tauto
      · rw [if_neg h2]
        simp only [List.mem_cons, ih]
        tauto

theorem pairwise_insertSorted {x : Nat} {l : List Nat}
    (h : l.Pairwise (· < ·)) : (insertSorted x l).Pairwise (· < ·) := by
  induction l with
  | nil => simp [insertSorted]
  | cons z rest ih =>
    rw [List.pairwise_cons] at h
    obtain ⟨hz, hrest⟩ := h
    unfold insertSorted
    by_cases h1 : x < z
    · rw [if_pos h1]
      rw [List.pairwise_cons]
      refine ⟨?_, ?_⟩
      · intro y hy
        rcases List.mem_cons.mp hy with h2 | h2
        · omega
        · have h3 := hz y h2
          omega
      · rw [List.pairwise_cons]
        exact ⟨hz, hrest⟩
    · rw [if_neg h1]
      by_cases h2 : x = z
      · rw [if_pos h2]
        rw [List.pairwise_cons]
        exact ⟨hz, hrest⟩
      · rw [if_neg h2]
        rw [List.pairwise_cons]
        refine ⟨?_, ih hrest⟩
        intro y hy
        rcases (mem_insertSorted x y rest).mp hy with h3 | h3
        · omega
        · exact hz y h3

theorem mem_natUnion (y : Nat) (d o : List Nat) :
    y ∈ natUnion d o ↔ y ∈ d ∨ y ∈ o := by
  unfold natUnion
  induction o generalizing d with
  | nil => simp
  | cons z rest ih =>
    simp only [List.foldl_cons]
    rw [ih]
    rw [mem_insertSorted]
    simp only [List.mem_cons]
    tauto

theorem pairwise_natUnion {d : List Nat} (o : List Nat)
    (h : d.Pairwise (· < ·)) : (natUnion d o).Pairwise (· < ·) := by
  unfold natUnion
  induction o generalizing d with
  | nil => exact h
  | cons z rest ih =>
    simp only [List.foldl_cons]
    exact ih (pairwise_insertSorted h)

/-! ### Lemmas about consecutive branch points -/

theorem consecPairs_mem {a e : Nat} {l : List Nat}
    (h : (a, e) ∈ consecPairs l) : a ∈ l ∧ e ∈ l := by
  induction l with
  | nil => cases h
  | cons z rest ih =>
    cases rest with
    | nil => cases h
    | cons w t =>
      simp only [consecPairs, List.mem_cons] at h
      rcases h with h1 | h1
      · obtain ⟨h2, h3⟩ := Prod.mk.injEq .. |>.mp h1
        subst h2
        subst h3
        constructor
        · exact List.mem_cons_self _ _
        · exact List.mem_cons_of_mem _ (List.mem_cons_self _ _)
      · have h2 := ih h1
        exact ⟨List.mem_cons_of_mem _ h2.1, List.mem_cons_of_mem _ h2.2⟩

theorem consecPairs_gap {l : List Nat} (hl : l.Pairwise (· < ·)) {a e j : Nat}
    (hp : (a, e) ∈ consecPairs l) (hj : j ∈ l) (h : a < j) : e ≤ j := by
  induction l with
  | nil => cases hp
  | cons z rest ih =>
    cases rest with
    | nil => cases hp
    | cons w t =>
      rw [List.pairwise_cons] at hl
      obtain ⟨hz, hrest⟩ := hl
      simp only [consecPairs, List.mem_cons] at hp
      rcases hp with h1 | h1
      · obtain ⟨h2, h3⟩ := Prod.mk.injEq .. |>.mp h1
        subst h2
        subst h3
        rcases List.mem_cons.mp hj with h4 | h4
        · omega
        · rcases List.mem_cons.mp h4 with h5 | h5
          · omega
          · rw [List.pairwise_cons] at hrest
            have h6 := hrest.1 j h5
            omega
      · have ha : a ∈ w :: t := (consecPairs_mem h1).1
        rcases List.mem_cons.mp hj with h4 | h4
        · have h5 := hz a ha
          omega
        · exact ih hrest h1 h4

theorem consecPairs_exists {l : List Nat} (hl : l.Pairwise (· < ·)) {a c : Nat}
    (ha : a ∈ l) (hc : c ∈ l) (h : a < c) :
    ∃ e, (a, e) ∈ consecPairs l := by
  induction l with
  | nil => cases ha
  | cons z rest ih =>
    rw [List.pairwise_cons] at hl
    obtain ⟨hz, hrest⟩ := hl
    rcases List.mem_cons.mp ha with h1 | h1
    · subst h1
      have hc2 : c ∈ rest := by
        rcases List.mem_cons.mp hc with h2 | h2
        · omega
        · exact h2
      cases rest with
      | nil => cases hc2
      | cons w t =>
        refine ⟨w, ?_⟩
        simp [consecPairs]
    · have hc2 : c ∈ rest := by
        rcases List.mem_cons.mp hc with h2 | h2
        · subst h2
          have h5 := hz a h1
          omega
        · exact h2
      obtain ⟨e, he⟩ := ih hrest h1 hc2
      cases rest with
      | nil => cases h1
      | cons w t =>
        refine ⟨e, ?_⟩
        simp only [consecPairs, List.mem_cons]
        exact Or.inr he

/-! ### Lemmas about the jump validators -/

theorem validate_unconditional_ok {x i : Nat} {bc : List Bytecode}
    (h : validate_unconditional_jump x i bc = .ok ()) :
    ¬ x = i ∧ ∃ c, bc.get? x = some c ∧ isBranch c = false := by
  unfold validate_unconditional_jump at h
  by_cases h1 : x = i
  · rw [if_pos h1] at h
    cases h
  · rw [if_neg h1] at h
    refine ⟨h1, ?_⟩
    split at h
    · cases h
    · rename_i c heq
      by_cases h3 : isBranch c = true
      · rw [if_pos h3] at h
        cases h
      · refine ⟨c, heq, ?_⟩
        simp at h3
        exact h3

theorem validate_conditional_ok {x i : Nat} {bc : List Bytecode}
    (h : validate_conditional_jump x i bc = .ok ()) :
    i < x ∧ (∀ c, bc.get? (i + 1) = some c → isConditionalBranch c = false) ∧
      validate_unconditional_jump x i bc = .ok () := by
  unfold validate_conditional_jump at h
  by_cases h1 : x < i
  · rw [if_pos h1] at h
    cases h
  · rw [if_neg h1] at h
    by_cases h2 : (bc.get? (i + 1)).any (fun b => isConditionalBranch b) = true
    · rw [if_pos h2] at h
      cases h
    · rw [if_neg h2] at h
      have h3 := validate_unconditional_ok h
      refine ⟨?_, ?_, h⟩
      · have h4 := h3.1
        omega
      · intro c hc
        rw [hc] at h2
        simp [Option.any] at h2
        exact h2

/-! ### Lemmas about the first scan of `Cfg::new` -/

theorem scanBranchesAux_sub {bc : List Bytecode} :
    ∀ (rest : List Bytecode) (i : Nat) (d o D O : List Nat),
      scanBranchesAux bc rest i d o = .ok (D, O) →
      (∀ y, y ∈ d → y ∈ D) ∧ (∀ y, y ∈ o → y ∈ O) := by
  intro rest
  induction rest with
  | nil =>
    intro i d o D O h
    unfold scanBranchesAux at h
    simp only [Except.ok.injEq, Prod.mk.injEq] at h
    obtain ⟨hd, ho⟩ := h
    subst hd
    subst ho
    exact ⟨fun y hy => hy, fun y hy => hy⟩
  | cons b rest ih =>
    intro i d o D O h
    unfold scanBranchesAux at h
    split at h
    · split at h
      · cases h
      · have h2 := ih _ _ _ _ _ h
        refine ⟨?_, ?_⟩
        · intro y hy
          exact h2.1 y ((mem_insertSorted _ _ _).mpr
            (Or.inr ((mem_insertSorted _ _ _).mpr (Or.inr hy))))
        · intro y hy
          exact h2.2 y ((mem_insertSorted _ _ _).mpr (Or.inr hy))
    · split at h
      · cases h
      · have h2 := ih _ _ _ _ _ h
        refine ⟨?_, ?_⟩
        · intro y hy
          exact h2.1 y ((mem_insertSorted _ _ _).mpr
            (Or.inr ((mem_insertSorted _ _ _).mpr (Or.inr hy))))
        · intro y hy
          exact h2.2 y ((mem_insertSorted _ _ _).mpr (Or.inr hy))
    · split at h
      · cases h
      · have h2 := ih _ _ _ _ _ h
        refine ⟨?_, ?_⟩
        · intro y hy
          exact h2.1 y ((mem_insertSorted _ _ _).mpr (Or.inr hy))
        · intro y hy
          exact h2.2 y ((mem_insertSorted _ _ _).mpr (Or.inr hy))
    · exact ih _ _ _ _ _ h

theorem scanBranchesAux_branch {bc : List Bytecode} :
    ∀ (rest : List Bytecode) (i : Nat) (d o D O : List Nat),
      scanBranchesAux bc rest i d o = .ok (D, O) →
      ∀ off x, rest.get? off = some (.Branch x) →
        x ∈ D ∧ (i + off) ∈ O ∧
          validate_unconditional_jump x (i + off) bc = .ok () := by
  intro rest
  induction rest with
  | nil =>
    intro i d o D O h off x hoff
    cases hoff
  | cons b rest ih =>
    intro i d o D O h off x hoff
    cases off with
    | zero =>
      rw [List.get?_cons_zero] at hoff
      have hb : b = .Branch x := by
        injection hoff
      subst hb
      unfold scanBranchesAux at h
      simp only at h
      split at h
      · cases h
      · rename_i u hv
        have h2 := scanBranchesAux_sub _ _ _ _ _ _ h
        rw [Nat.add_zero]
        refine ⟨?_, ?_, ?_⟩
        · exact h2.1 x ((mem_insertSorted _ _ _).mpr (Or.inl rfl))
        · exact h2.2 i ((mem_insertSorted _ _ _).mpr (Or.inl rfl))
        · cases u
          exact hv
    | succ off =>
      rw [List.get?_cons_succ] at hoff
      unfold scanBranchesAux at h
      have harith : i + (off + 1) = (i + 1) + off := by omega
      rw [harith]
      split at h
      · split at h
        · cases h
        · exact ih _ _ _ _ _ h off x hoff
      · split at h
        · cases h
        · exact ih _ _ _ _ _ h off x hoff
      · split at h
        · cases h
        · exact ih _ _ _ _ _ h off x hoff
      · exact ih _ _ _ _ _ h off x hoff

theorem scanBranchesAux_cond {bc : List Bytecode} :
    ∀ (rest : List Bytecode) (i : Nat) (d o D O : List Nat),
      scanBranchesAux bc rest i d o = .ok (D, O) →
      ∀ off x, (rest.get? off = some (.BrTrue x) ∨ rest.get? off = some (.BrFalse x)) →
        x ∈ D ∧ (i + off + 1) ∈ D ∧ (i + off) ∈ O ∧
          validate_conditional_jump x (i + off) bc = .ok () := by
  intro rest
  induction rest with
  | nil =>
    intro i d o D O h off x hoff
    rcases hoff with hoff | hoff <;> cases hoff
  | cons b rest ih =>
    intro i d o D O h off x hoff
    cases off with
    | zero =>
      have hb : b = .BrTrue x ∨ b = .BrFalse x := by
        rcases hoff with hoff | hoff <;> rw [List.get?_cons_zero] at hoff
        · exact Or.inl (by injection hoff)
        · exact Or.inr (by injection hoff)
      have hstep : ∃ u, validate_conditional_jump x i bc = .ok u ∧
          scanBranchesAux bc rest (i + 1)
            (insertSorted (i + 1) (insertSorted x d)) (insertSorted i o) = .ok (D, O) := by
        rcases hb with hb | hb <;> subst hb <;> unfold scanBranchesAux at h <;>
          simp only at h <;> split at h
        · cases h
        · rename_i u hv
          exact ⟨u, hv, h⟩
        · cases h
        · rename_i u hv
          exact ⟨u, hv, h⟩
      obtain ⟨u, hv, hrec⟩ := hstep
      have h2 := scanBranchesAux_sub _ _ _ _ _ _ hrec
      rw [Nat.add_zero]
      refine ⟨?_, ?_, ?_, ?_⟩
      · exact h2.1 x ((mem_insertSorted _ _ _).mpr
          (Or.inr ((mem_insertSorted _ _ _).mpr (Or.inl rfl))))
      · exact h2.1 (i + 1) ((mem_insertSorted _ _ _).mpr (Or.inl rfl))
      · exact h2.2 i ((mem_insertSorted _ _ _).mpr (Or.inl rfl))
      · cases u
        exact hv
    | succ off =>
      have hoff2 : rest.get? off = some (.BrTrue x) ∨ rest.get? off = some (.BrFalse x) := by
        rcases hoff with hoff | hoff <;> rw [List.get?_cons_succ] at hoff
        · exact Or.inl hoff
        · exact Or.inr hoff
      unfold scanBranchesAux at h
      have harith1 : i + (off + 1) = (i + 1) + off := by omega
      rw [harith1]
      split at h
      · split at h
        · cases h
        · exact ih _ _ _ _ _ h off x hoff2
      · split at h
        · cases h
        · exact ih _ _ _ _ _ h off x hoff2
      · split at h
        · cases h
        · exact ih _ _ _ _ _ h off x hoff2
      · exact ih _ _ _ _ _ h off x hoff2

theorem scanBranchesAux_origin_src {bc : List Bytecode} :
    ∀ (rest : List Bytecode) (i : Nat) (d o D O : List Nat),
      scanBranchesAux bc rest i d o = .ok (D, O) →
      ∀ k, k ∈ O →
        k ∈ o ∨ ∃ off b, rest.get? off = some b ∧ isBranch b = true ∧ k = i + off := by
  intro rest
  induction rest with
  | nil =>
    intro i d o D O h k hk
    unfold scanBranchesAux at h
    simp only [Except.ok.injEq, Prod.mk.injEq] at h
    obtain ⟨hd, ho⟩ := h
    subst ho
    exact Or.inl hk
  | cons b rest ih =>
    intro i d o D O h k hk
    have hhandle : ∀ (d' : List Nat),
        scanBranchesAux bc rest (i + 1) d' (insertSorted i o) = .ok (D, O) →
        isBranch b = true →
        k ∈ o ∨ ∃ off b', (b :: rest).get? off = some b' ∧ isBranch b' = true ∧ k = i + off := by
      intro d' hrec hbr
      rcases ih _ _ _ _ _ hrec k hk with h1 | h1
      · rcases (mem_insertSorted _ _ _).mp h1 with h2 | h2
        · subst h2
          exact Or.inr ⟨0, b, List.get?_cons_zero, hbr, (Nat.add_zero _).symm⟩
        · exact Or.inl h2
      · obtain ⟨off, b', hoff, hbr', hkeq⟩ := h1
        refine Or.inr ⟨off + 1, b', ?_, hbr', ?_⟩
        · rw [List.get?_cons_succ]
          exact hoff
        · omega
    have hskip :
        scanBranchesAux bc rest (i + 1) d o = .ok (D, O) →
        k ∈ o ∨ ∃ off b', (b :: rest).get? off = some b' ∧ isBranch b' = true ∧ k = i + off := by
      intro hrec
      rcases ih _ _ _ _ _ hrec k hk with h1 | h1
      · exact Or.inl h1
      · obtain ⟨off, b', hoff, hbr', hkeq⟩ := h1
        refine Or.inr ⟨off + 1, b', ?_, hbr', ?_⟩
        · rw [List.get?_cons_succ]
          exact hoff
        · omega
    unfold scanBranchesAux at h
    split at h
    · split at h
      · cases h
      · exact hhandle _ h rfl
    · split at h
      · cases h
      · exact hhandle _ h rfl
    · split at h
      · cases h
      · exact hhandle _ h rfl
    · exact hskip h

theorem scanBranchesAux_pairwise {bc : List Bytecode} :
    ∀ (rest : List Bytecode) (i : Nat) (d o D O : List Nat),
      scanBranchesAux bc rest i d o = .ok (D, O) →
      d.Pairwise (· < ·) → o.Pairwise (· < ·) →
      D.Pairwise (· < ·) ∧ O.Pairwise (· < ·) := by
  intro rest
  induction rest with
  | nil =>
    intro i d o D O h hd ho
    unfold scanBranchesAux at h
    simp only [Except.ok.injEq, Prod.mk.injEq] at h
    obtain ⟨h1, h2⟩ := h
    subst h1
    subst h2
    exact ⟨hd, ho⟩
  | cons b rest ih =>
    intro i d o D O h hd ho
    unfold scanBranchesAux at h
    split at h
    · split at h
      · cases h
      · exact ih _ _ _ _ _ h
          (pairwise_insertSorted (pairwise_insertSorted hd)) (pairwise_insertSorted ho)
    · split at h
      · cases h
      · exact ih _ _ _ _ _ h
          (pairwise_insertSorted (pairwise_insertSorted hd)) (pairwise_insertSorted ho)
    · split at h
      · cases h
      · exact ih _ _ _ _ _ h (pairwise_insertSorted hd) (pairwise_insertSorted ho)
    · exact ih _ _ _ _ _ h hd ho

/-! ### Lemmas about the block map -/

theorem Label_new_ne_exit (i : Nat) : ¬ Label.new i = .Exit := by
  unfold Label.new
  split <;> intro h <;> cases h

theorem lmapLookup_append_right {β : Type} (k : Label) (m₁ m₂ : LMap β)
    (h : ∀ p, p ∈ m₁ → ¬ p.1 = k) : lmapLookup k (m₁ ++ m₂) = lmapLookup k m₂ := by
  induction m₁ with
  | nil => simp
  | cons p rest ih =>
    obtain ⟨k₁, v₁⟩ := p
    have h1 : ¬ k₁ = k := h (k₁, v₁) (List.mem_cons_self _ _)
    have h2 : ¬ k = k₁ := fun he => h1 he.symm
    simp only [List.cons_append]
    have hstep : lmapLookup k ((k₁, v₁) :: (rest ++ m₂)) =
        if k = k₁ then some v₁ else lmapLookup k (rest ++ m₂) := rfl
    rw [hstep, if_neg h2]
    exact ih (fun p hp => h p (List.mem_cons_of_mem _ hp))

theorem blocks_contains_exit (bc : List Bytecode) (points origins : List Nat) :
    lmapContains .Exit (buildBlocks bc points origins) = true := by
  unfold buildBlocks lmapContains
  rw [lmapLookup_append_right]
  · simp [lmapLookup]
  · intro p hp
    obtain ⟨q, hq, hmk⟩ := List.mem_filterMap.mp hp
    split at hmk
    · cases hmk
    · rw [Option.some.injEq] at hmk
      rw [← hmk]
      exact Label_new_ne_exit q.1

theorem blocks_contains_of {bc : List Bytecode} {points origins : List Nat}
    (hpw : points.Pairwise (· < ·)) {x c : Nat}
    (hx : x ∈ points) (hc : c ∈ points) (hxc : x < c) (hno : x ∉ origins) :
    lmapContains (Label.new x) (buildBlocks bc points origins) = true := by
  obtain ⟨e, he⟩ := consecPairs_exists hpw hx hc hxc
  have hmem : (Label.new x, listSlice bc x e) ∈ buildBlocks bc points origins := by
    unfold buildBlocks
    apply List.mem_append_left
    apply List.mem_filterMap.mpr
    refine ⟨(x, e), he, ?_⟩
    simp only
    rw [if_neg hno]
  exact lmapLookup_isSome_of_mem hmem

theorem buildBlocks_lookup {bc : List Bytecode} {points origins : List Nat}
    {l : Label} {blk : List Bytecode}
    (h : lmapLookup l (buildBlocks bc points origins) = some blk) :
    (l = .Exit ∧ blk = []) ∨
      ∃ s e, (s, e) ∈ consecPairs points ∧ s ∉ origins ∧
        l = Label.new s ∧ blk = listSlice bc s e := by
  have hmem := mem_of_lmapLookup h
  unfold buildBlocks at hmem
  rcases List.mem_append.mp hmem with h1 | h1
  · obtain ⟨q, hq, hmk⟩ := List.mem_filterMap.mp h1
    right
    split at hmk
    · cases hmk
    · rename_i hnotin
      rw [Option.some.injEq] at hmk
      obtain ⟨h2, h3⟩ := Prod.mk.injEq .. |>.mp hmk
      exact ⟨q.1, q.2, hq, hnotin, h2.symm, h3.symm⟩
  · left
    rcases List.mem_cons.mp h1 with h2 | h2
    · obtain ⟨h3, h4⟩ := Prod.mk.injEq .. |>.mp h2
      exact ⟨h3, h4⟩
    · cases h2

/-! ### Reduction lemmas for the conditional fall-through label -/

theorem condFallthrough_eq_of_branch {bc : List Bytecode} {i y : Nat}
    (hc : bc.get? (i + 1) = some (.Branch y)) :
    condFallthrough bc i = Label.new y := by
  unfold condFallthrough
  rw [hc]

theorem condFallthrough_eq_of_not_branch {bc : List Bytecode} {i : Nat} {c : Bytecode}
    (hc : bc.get? (i + 1) = some c) (h : ∀ y, ¬ c = .Branch y) :
    condFallthrough bc i = Label.new (i + 1) := by
  unfold condFallthrough
  rw [hc]
  cases c <;> try rfl
  exact absurd rfl (h _)

theorem isBranch_false_of {c : Bytecode} (h1 : isConditionalBranch c = false)
    (h2 : ∀ y, ¬ c = .Branch y) : isBranch c = false := by
  cases c <;> first
    | rfl
    | exact absurd rfl (h2 _)
    | simp [isConditionalBranch] at h1

/-! ### Every validated branch destination is a block key -/

theorem origin_is_branch {bc : List Bytecode} {D O : List Nat}
    (hscan : scanBranchesAux bc bc 0
      (insertSorted bc.length (insertSorted 0 [])) [] = .ok (D, O)) :
    ∀ k, k ∈ O → ∃ b, bc.get? k = some b ∧ isBranch b = true := by
  intro k hk
  rcases scanBranchesAux_origin_src _ _ _ _ _ _ hscan k hk with h1 | h1
  · cases h1
  · obtain ⟨off, b, hoff, hbr, hkeq⟩ := h1
    subst hkeq
    rw [Nat.zero_add]
    exact ⟨b, hoff, hbr⟩

theorem points_pairwise {bc : List Bytecode} {D O : List Nat}
    (hscan : scanBranchesAux bc bc 0
      (insertSorted bc.length (insertSorted 0 [])) [] = .ok (D, O)) :
    (natUnion D O).Pairwise (· < ·) := by
  have h0 : (insertSorted bc.length (insertSorted 0 [])).Pairwise (· < ·) :=
    pairwise_insertSorted (pairwise_insertSorted List.Pairwise.nil)
  have h1 := scanBranchesAux_pairwise _ _ _ _ _ _ hscan h0 List.Pairwise.nil
  exact pairwise_natUnion _ h1.1

theorem goodIndex_contains {bc : List Bytecode} {D O : List Nat}
    (hscan : scanBranchesAux bc bc 0
      (insertSorted bc.length (insertSorted 0 [])) [] = .ok (D, O))
    {x : Nat} (hxD : x ∈ D)
    (hxok : ∃ c, bc.get? x = some c ∧ isBranch c = false) :
    lmapContains (Label.new x) (buildBlocks bc (natUnion D O) O) = true := by
  obtain ⟨c, hc, hbr⟩ := hxok
  have hxp : x ∈ natUnion D O := (mem_natUnion _ _ _).mpr (Or.inl hxD)
  have hlen : bc.length ∈ natUnion D O := by
    have h2 := (scanBranchesAux_sub _ _ _ _ _ _ hscan).1 bc.length
      ((mem_insertSorted _ _ _).mpr (Or.inl rfl))
    exact (mem_natUnion _ _ _).mpr (Or.inl h2)
  have hxlen : x < bc.length := by
    by_contra hge
    rw [List.get?_eq_none.mpr (by omega)] at hc
    cases hc
  have hno : x ∉ O := by
    intro hxO
    obtain ⟨b, hb, hbbr⟩ := origin_is_branch hscan x hxO
    rw [hc] at hb
    rw [Option.some.injEq] at hb
    subst hb
    rw [hbr] at hbbr
    cases hbbr
  exact blocks_contains_of (points_pairwise hscan) hxp hlen hxlen hno

theorem branch_target_contains {bc : List Bytecode} {D O : List Nat}
    (hscan : scanBranchesAux bc bc 0
      (insertSorted bc.length (insertSorted 0 [])) [] = .ok (D, O)) :
    ∀ j x, bc.get? j = some (.Branch x) →
      lmapContains (Label.new x) (buildBlocks bc (natUnion D O) O) = true := by
  intro j x hj
  have h1 := scanBranchesAux_branch _ _ _ _ _ _ hscan j x hj
  rw [Nat.zero_add] at h1
  obtain ⟨hxD, hjO, hval⟩ := h1
  have h2 := validate_unconditional_ok hval
  exact goodIndex_contains hscan hxD h2.2

theorem cond_targets_contain {bc : List Bytecode} {D O : List Nat}
    (hscan : scanBranchesAux bc bc 0
      (insertSorted bc.length (insertSorted 0 [])) [] = .ok (D, O)) :
    ∀ j x, (bc.get? j = some (.BrTrue x) ∨ bc.get? j = some (.BrFalse x)) →
      lmapContains (Label.new x) (buildBlocks bc (natUnion D O) O) = true ∧
        lmapContains (condFallthrough bc j) (buildBlocks bc (natUnion D O) O) = true := by
  intro j x hj
  have h1 := scanBranchesAux_cond _ _ _ _ _ _ hscan j x hj
  rw [Nat.zero_add] at h1
  obtain ⟨hxD, hj1D, hjO, hval⟩ := h1
  obtain ⟨hjx, hnext, hvalu⟩ := validate_conditional_ok hval
  have h3 := validate_unconditional_ok hvalu
  obtain ⟨c, hc, hbr⟩ := h3.2
  have hxj := h3.1
  constructor
  · exact goodIndex_contains hscan hxD ⟨c, hc, hbr⟩
  · have hxlen : x < bc.length := by
      by_contra hge
      rw [List.get?_eq_none.mpr (by omega)] at hc
      cases hc
    have hj1len : j + 1 < bc.length := by omega
    have hc2 : ∃ c₂, bc.get? (j + 1) = some c₂ := by
      rcases h4 : bc.get? (j + 1) with _ | c₂
      · rw [List.get?_eq_none] at h4
        omega
      · exact ⟨c₂, rfl⟩
    obtain ⟨c₂, hc₂⟩ := hc2
    by_cases hbry : ∃ y, c₂ = .Branch y
    · obtain ⟨y, rfl⟩ := hbry
      rw [condFallthrough_eq_of_branch hc₂]
      exact branch_target_contains hscan (j + 1) y hc₂
    · have hnb : ∀ y, ¬ c₂ = .Branch y := fun y hy => hbry ⟨y, hy⟩
      rw [condFallthrough_eq_of_not_branch hc₂ hnb]
      have hnotcond : isConditionalBranch c₂ = false := hnext c₂ hc₂
      exact goodIndex_contains hscan hj1D ⟨c₂, hc₂, isBranch_false_of hnotcond hnb⟩

/-! ### The edge classifier only targets block keys -/

theorem edgesOk_insert {blocks : LMap (List Bytecode)} {m : LMap OutgoingEdge}
    {k : Label} {e₀ : OutgoingEdge}
    (h : ∀ l e, lmapLookup l m = some e → edgeSuccIn blocks e)
    (he : edgeSuccIn blocks e₀) :
    ∀ l e, lmapLookup l (lmapInsert k e₀ m) = some e → edgeSuccIn blocks e := by
  intro l e hle
  rw [lmapLookup_insert] at hle
  by_cases h1 : l = k
  · rw [if_pos h1] at hle
    rw [Option.some.injEq] at hle
    subst hle
    exact he
  · rw [if_neg h1] at hle
    exact h l e hle

theorem edgesOk_erase {blocks : LMap (List Bytecode)} {m : LMap OutgoingEdge}
    {k : Label}
    (h : ∀ l e, lmapLookup l m = some e → edgeSuccIn blocks e) :
    ∀ l e, lmapLookup l (lmapErase k m) = some e → edgeSuccIn blocks e := by
  intro l e hle
  rw [lmapLookup_erase] at hle
  by_cases h1 : l = k
  · rw [if_pos h1] at hle
    cases hle
  · rw [if_neg h1] at hle
    exact h l e hle

theorem enterBlock_preserves {blocks : LMap (List Bytecode)} {i : Nat}
    {st : LMap OutgoingEdge × Option Label}
    (hP : ∀ l e, lmapLookup l st.1 = some e → edgeSuccIn blocks e) :
    ∀ l e, lmapLookup l (enterBlock blocks i st).1 = some e → edgeSuccIn blocks e := by
  obtain ⟨edges, cur⟩ := st
  unfold enterBlock
  by_cases hhead : lmapContains (Label.new i) blocks = true
  · rw [if_pos hhead]
    cases cur with
    | some l₀ =>
      simp only
      exact edgesOk_insert hP hhead
    | none =>
      simp only
      exact hP
  · rw [if_neg hhead]
    exact hP

theorem classifyInstr_preserves {bc : List Bytecode} {blocks : LMap (List Bytecode)}
    {i : Nat} {b : Bytecode} {edges0 : LMap OutgoingEdge} {l0 : Label}
    {st' : LMap OutgoingEdge × Option Label}
    (hstep : classifyInstr bc i b edges0 l0 = .ok st')
    (hb : bc.get? i = some b)
    (hG1 : ∀ j x, bc.get? j = some (.Branch x) →
      lmapContains (Label.new x) blocks = true)
    (hG2 : ∀ j x, (bc.get? j = some (.BrTrue x) ∨ bc.get? j = some (.BrFalse x)) →
      lmapContains (Label.new x) blocks = true ∧
        lmapContains (condFallthrough bc j) blocks = true)
    (hG3 : lmapContains .Exit blocks = true)
    (hP : ∀ l e, lmapLookup l edges0 = some e → edgeSuccIn blocks e) :
    ∀ l e, lmapLookup l st'.1 = some e → edgeSuccIn blocks e := by
  unfold classifyInstr at hstep
  split at hstep
  · rename_i x
    rw [Except.ok.injEq] at hstep
    subst hstep
    exact edgesOk_insert hP ⟨(hG2 i x (Or.inl hb)).1, (hG2 i x (Or.inl hb)).2⟩
  · rename_i x
    rw [Except.ok.injEq] at hstep
    subst hstep
    exact edgesOk_insert hP ⟨(hG2 i x (Or.inr hb)).2, (hG2 i x (Or.inr hb)).1⟩
  · rename_i x
    by_cases hxi : x < i
    · rw [if_pos hxi] at hstep
      split at hstep
      · rename_i t f hlook
        have htf : lmapContains t blocks = true ∧ lmapContains f blocks = true :=
          hP _ _ hlook
        split at hstep
        · cases hstep
        · cases hstep
        · rw [Except.ok.injEq] at hstep
          subst hstep
          apply edgesOk_insert
          · exact edgesOk_insert (edgesOk_erase hP) ⟨htf.1, htf.2⟩
          · exact hG1 i x hb
        · rw [Except.ok.injEq] at hstep
          subst hstep
          apply edgesOk_insert
          · exact edgesOk_insert (edgesOk_erase hP) ⟨htf.2, htf.1⟩
          · exact hG1 i x hb
      · cases hstep
    · rw [if_neg hxi] at hstep
      rw [Except.ok.injEq] at hstep
      subst hstep
      exact edgesOk_insert hP (hG1 i x hb)
  · rw [Except.ok.injEq] at hstep
    subst hstep
    exact edgesOk_insert hP hG3
  · rw [Except.ok.injEq] at hstep
    subst hstep
    exact edgesOk_insert hP hG3
  · rw [Except.ok.injEq] at hstep
    subst hstep
    exact hP

theorem edgeStep_preserves {bc : List Bytecode} {blocks : LMap (List Bytecode)}
    {i : Nat} {b : Bytecode} {st st' : LMap OutgoingEdge × Option Label}
    (hstep : edgeStep bc blocks i b st = .ok st')
    (hb : bc.get? i = some b)
    (hG1 : ∀ j x, bc.get? j = some (.Branch x) →
      lmapContains (Label.new x) blocks = true)
    (hG2 : ∀ j x, (bc.get? j = some (.BrTrue x) ∨ bc.get? j = some (.BrFalse x)) →
      lmapContains (Label.new x) blocks = true ∧
        lmapContains (condFallthrough bc j) blocks = true)
    (hG3 : lmapContains .Exit blocks = true)
    (hP : ∀ l e, lmapLookup l st.1 = some e → edgeSuccIn blocks e) :
    ∀ l e, lmapLookup l st'.1 = some e → edgeSuccIn blocks e := by
  unfold edgeStep at hstep
  have hP1 := @enterBlock_preserves blocks i st hP
  split at hstep
  · rename_i edges1 heq
    rw [heq] at hP1
    rw [Except.ok.injEq] at hstep
    subst hstep
    exact hP1
  · rename_i edges1 l0 heq
    rw [heq] at hP1
    exact classifyInstr_preserves hstep hb hG1 hG2 hG3 hP1

theorem edgesScanAux_preserves {bc : List Bytecode} {blocks : LMap (List Bytecode)}
    (hG1 : ∀ j x, bc.get? j = some (.Branch x) →
      lmapContains (Label.new x) blocks = true)
    (hG2 : ∀ j x, (bc.get? j = some (.BrTrue x) ∨ bc.get? j = some (.BrFalse x)) →
      lmapContains (Label.new x) blocks = true ∧
        lmapContains (condFallthrough bc j) blocks = true)
    (hG3 : lmapContains .Exit blocks = true) :
    ∀ (rest : List Bytecode) (i : Nat) (st result : LMap OutgoingEdge × Option Label),
      edgesScanAux bc blocks rest i st = .ok result →
      (∀ off, rest.get? off = bc.get? (i + off)) →
      (∀ l e, lmapLookup l st.1 = some e → edgeSuccIn blocks e) →
      ∀ l e, lmapLookup l result.1 = some e → edgeSuccIn blocks e := by
  intro rest
  induction rest with
  | nil =>
    intro i st result h hsuf hP
    unfold edgesScanAux at h
    rw [Except.ok.injEq] at h
    subst h
    exact hP
  | cons b rest ih =>
    intro i st result h hsuf hP
    unfold edgesScanAux at h
    split at h
    · cases h
    · rename_i st1 hstep
      have hb : bc.get? i = some b := by
        have h0 := hsuf 0
        rw [Nat.add_zero] at h0
        rw [← h0]
        rfl
      have hsuf' : ∀ off, rest.get? off = bc.get? ((i + 1) + off) := by
        intro off
        have h1 := hsuf (off + 1)
        rw [List.get?_cons_succ] at h1
        rw [h1]
        congr 1
        omega
      exact ih _ _ _ h hsuf'
        (edgeStep_preserves hstep hb hG1 hG2 hG3 hP)

theorem CfgNew_ok_elim {bc : List Bytecode} {cfg : Cfg}
    (hnew : Cfg.new bc = .ok cfg) :
    ∃ D O E cur,
      scanBranchesAux bc bc 0
        (insertSorted bc.length (insertSorted 0 [])) [] = .ok (D, O) ∧
      edgesScanAux bc (buildBlocks bc (natUnion D O) O) bc 0 ([], none) = .ok (E, cur) ∧
      cfg.blocks = buildBlocks bc (natUnion D O) O ∧
      cfg.edges = (match cur with
                   | some l => lmapInsert l (.Pass .Exit) E
                   | none => E) := by
  unfold Cfg.new at hnew
  split at hnew
  · cases hnew
  · rename_i D O hscan
    split at hnew
    · cases hnew
    · rename_i E cur hescan
      cases cur with
      | some l₀ =>
        simp only at hnew
        rw [Except.ok.injEq] at hnew
        subst hnew
        exact ⟨D, O, E, some l₀, hscan, hescan, rfl, rfl⟩
      | none =>
        simp only at hnew
        rw [Except.ok.injEq] at hnew
        subst hnew
        exact ⟨D, O, E, none, hscan, hescan, rfl, rfl⟩

theorem isBranch_cases {c : Bytecode} (h : isBranch c = true) :
    (∃ x, c = .BrTrue x) ∨ (∃ x, c = .BrFalse x) ∨ (∃ x, c = .Branch x) := by
  cases c <;> simp_all [isBranch]

theorem listSlice_get {α : Type} {b : α} {l : List α} {s e : Nat}
    (h : b ∈ listSlice l s e) : ∃ j, s ≤ j ∧ j < e ∧ l.get? j = some b := by
  unfold listSlice at h
  obtain ⟨n, hn⟩ := List.mem_iff_get?.mp h
  have hlen : n < ((l.drop s).take (e - s)).length := by
    by_contra hge
    rw [List.get?_eq_none.mpr (by omega)] at hn
    cases hn
  rw [List.length_take] at hlen
  have hn2 : n < e - s := lt_of_lt_of_le hlen (min_le_left _ _)
  rw [List.get?_take hn2] at hn
  rw [List.get?_drop] at hn
  exact ⟨s + n, by omega, by omega, hn⟩

theorem cfg_block_no_branch_aux {bc : List Bytecode} {D O : List Nat}
    (hscan : scanBranchesAux bc bc 0
      (insertSorted bc.length (insertSorted 0 [])) [] = .ok (D, O))
    {l : Label} {blk : List Bytecode}
    (hblk : lmapLookup l (buildBlocks bc (natUnion D O) O) = some blk) :
    ∀ b, b ∈ blk → isBranch b = false := by
  intro b hb
  rcases buildBlocks_lookup hblk with ⟨hl, hblk0⟩ | ⟨s, e, hpair, hsno, hl, hslice⟩
  · subst hblk0
    cases hb
  · subst hslice
    obtain ⟨j, hsj, hje, hj⟩ := listSlice_get hb
    by_contra hbrne
    rw [Bool.not_eq_false] at hbrne
    have hjO : j ∈ O := by
      rcases isBranch_cases hbrne with ⟨x, hx⟩ | ⟨x, hx⟩ | ⟨x, hx⟩ <;> subst hx
      · have h1 := scanBranchesAux_cond _ _ _ _ _ _ hscan j x (Or.inl hj)
        rw [Nat.zero_add] at h1
        exact h1.2.2.1
      · have h1 := scanBranchesAux_cond _ _ _ _ _ _ hscan j x (Or.inr hj)
        rw [Nat.zero_add] at h1
        exact h1.2.2.1
      · have h1 := scanBranchesAux_branch _ _ _ _ _ _ hscan j x hj
        rw [Nat.zero_add] at h1
        exact h1.2.1
    have hjp : j ∈ natUnion D O := (mem_natUnion _ _ _).mpr (Or.inr hjO)
    by_cases hsj2 : s = j
    · subst hsj2
      exact hsno hjO
    · have hlt : s < j := by omega
      have hle := consecPairs_gap (points_pairwise hscan) hpair hjp hlt
      omega

theorem compile_body_no_branch_error {state : CompilerState} :
    ∀ (bcl : List Bytecode) (acc : List Node),
      (∀ b, b ∈ bcl → isBranch b = false) →
      ¬ compile_body state bcl acc = .error .branchingOpcode := by
  intro bcl
  induction bcl with
  | nil =>
    intro acc hnb h
    unfold compile_body at h
    cases h
  | cons c rest ih =>
    intro acc hnb h
    have hc : isBranch c = false := hnb c (List.mem_cons_self _ _)
    have hrest : ∀ b, b ∈ rest → isBranch b = false :=
      fun b hb => hnb b (List.mem_cons_of_mem _ hb)
    unfold compile_body at h
    split at h <;>
      first
      | exact ih _ hrest h
      | (simp [isBranch] at hc; done)
      | (simp at h; done)
      | (split at h <;> first | exact ih _ hrest h | (simp at h; done))

/-! ### Claim theorems: CFG invariants -/

/-- C7: for every bytecode sequence on which `Cfg.new` returns `ok`, every
label occurring in a successor position of any recorded edge (`next` of
`Pass`, `true_case`/`false_case` of `If`, `header` of `LoopBack`,
`body_start`/`after` of `WhileTrue` and `WhileFalse`) is a key of the
`blocks` map; there are no dangling edges. -/
theorem cfg_no_dangling_edges {bc : List Bytecode} {cfg : Cfg}
    (hnew : Cfg.new bc = .ok cfg) :
    ∀ l e, lmapLookup l cfg.edges = some e → edgeSuccIn cfg.blocks e := by
  obtain ⟨D, O, E, cur, hscan, hescan, hblocks, hedges⟩ := CfgNew_ok_elim hnew
  have hG1 := branch_target_contains hscan
  have hG2 := cond_targets_contain hscan
  have hG3 := blocks_contains_exit bc (natUnion D O) O
  have hsuf : ∀ off : Nat, bc.get? off = bc.get? (0 + off) := by
    intro off
    rw [Nat.zero_add]
  have hPE : ∀ l e, lmapLookup l E = some e →
      edgeSuccIn (buildBlocks bc (natUnion D O) O) e :=
    edgesScanAux_preserves hG1 hG2 hG3 bc 0 ([], none) (E, cur) hescan hsuf
      (fun l e hle => by cases hle)
  rw [hblocks, hedges]
  cases cur with
  | some l₀ =>
    simp only
    exact edgesOk_insert hPE hG3
  | none =>
    simp only
    exact hPE

/-- Witness for C7 at the concrete bytecode `[LdU32 0, Ret]`, whose CFG
has the single edge `Entry → Pass Exit` with `Exit` a block key. -/
theorem cfg_no_dangling_edges_witness :
    edgeSuccIn [(Label.Entry, [Bytecode.LdU32 0, Bytecode.Ret]), (Label.Exit, [])]
      (.Pass .Exit) :=
  @cfg_no_dangling_edges [Bytecode.LdU32 0, Bytecode.Ret]
    ⟨[(Label.Entry, [Bytecode.LdU32 0, Bytecode.Ret]), (Label.Exit, [])],
     [(Label.Entry, .Pass .Exit)]⟩
    rfl Label.Entry (.Pass .Exit) rfl

/-- C5 counterexample: when the instruction at index 0 is itself a branch,
`Cfg::new` succeeds but `Entry` is not a key of `blocks` (index 0 is a
branch origin, so the block starting at 0 is filtered out). -/
theorem cfg_entry_missing_counterexample :
    Cfg.new [Bytecode.Branch 2, Bytecode.Ret, Bytecode.Ret] =
      .ok ⟨[(Label.Point 2, [Bytecode.Ret]), (Label.Exit, [])],
           [(Label.Point 2, .Pass .Exit)]⟩ ∧
    lmapLookup Label.Entry
      [(Label.Point 2, [Bytecode.Ret]), (Label.Exit, [])] = none := by
  constructor
  · rfl
  · rfl

/-- C5 amended: `Exit` is always a key of `blocks`; `Entry` is a key
whenever the first instruction exists and is not a branching bytecode. -/
theorem cfg_entry_exit_present {bc : List Bytecode} {cfg : Cfg}
    (hnew : Cfg.new bc = .ok cfg) :
    lmapContains .Exit cfg.blocks = true ∧
      (∀ b0, bc.get? 0 = some b0 → isBranch b0 = false →
        lmapContains .Entry cfg.blocks = true) := by
  obtain ⟨D, O, E, cur, hscan, hescan, hblocks, hedges⟩ := CfgNew_ok_elim hnew
  rw [hblocks]
  constructor
  · exact blocks_contains_exit ..
  · intro b0 hb0 hbr
    have h0D : (0 : Nat) ∈ D := (scanBranchesAux_sub _ _ _ _ _ _ hscan).1 0
      ((mem_insertSorted _ _ _).mpr (Or.inr ((mem_insertSorted _ _ _).mpr (Or.inl rfl))))
    have hgood := goodIndex_contains hscan h0D ⟨b0, hb0, hbr⟩
    have hE : Label.new 0 = .Entry := rfl
    rw [← hE]
    exact hgood

/-- Witness for C5 (amended) at `[Add, Ret]`: `Entry` and `Exit` are both
keys of the resulting block map. -/
theorem cfg_entry_exit_present_witness :
    lmapContains Label.Exit
      [(Label.Entry, [Bytecode.Add, Bytecode.Ret]), (Label.Exit, [])] = true ∧
    lmapContains Label.Entry
      [(Label.Entry, [Bytecode.Add, Bytecode.Ret]), (Label.Exit, [])] = true := by
  have h := @cfg_entry_exit_present [Bytecode.Add, Bytecode.Ret]
    ⟨[(Label.Entry, [Bytecode.Add, Bytecode.Ret]), (Label.Exit, [])],
     [(Label.Entry, .Pass .Exit)]⟩ rfl
  exact ⟨h.1, h.2 Bytecode.Add rfl rfl⟩

/-- C8: on every bytecode on which `Cfg.new` returns `ok`, no block of the
CFG contains a `BrTrue`, `BrFalse` or `Branch` instruction, and hence
`compile_body` never reaches its branching-opcode arm (the `unreachable!`
of the Rust source) on any block: the emitted AST contains no branching
opcode. -/
theorem cfg_blocks_branch_free {bc : List Bytecode} {cfg : Cfg}
    (hnew : Cfg.new bc = .ok cfg) :
    ∀ l blk, lmapLookup l cfg.blocks = some blk →
      (∀ b, b ∈ blk → isBranch b = false) ∧
      (∀ state acc, ¬ compile_body state blk acc = .error .branchingOpcode) := by
  obtain ⟨D, O, E, cur, hscan, hescan, hblocks, hedges⟩ := CfgNew_ok_elim hnew
  intro l blk hblk
  rw [hblocks] at hblk
  have hnb : ∀ b, b ∈ blk → isBranch b = false := cfg_block_no_branch_aux hscan hblk
  exact ⟨hnb, fun state acc => compile_body_no_branch_error blk acc hnb⟩

/-- Witness for C8 at `[LdU32 7, BrFalse 3, Ret, Abort]`: the `Entry`
block `[LdU32 7]` contains no branch and translates without reaching the
branching-opcode arm. -/
theorem cfg_blocks_branch_free_witness :
    (∀ b, b ∈ [Bytecode.LdU32 7] → isBranch b = false) ∧
      (∀ state acc,
        ¬ compile_body state [Bytecode.LdU32 7] acc = .error .branchingOpcode) :=
  @cfg_blocks_branch_free [Bytecode.LdU32 7, Bytecode.BrFalse 3,
      Bytecode.Ret, Bytecode.Abort]
    ⟨[(Label.Entry, [Bytecode.LdU32 7]), (Label.Point 2, [Bytecode.Ret]),
      (Label.Point 3, [Bytecode.Abort]), (Label.Exit, [])],
     [(Label.Entry, .If (.Point 2) (.Point 3)),
      (Label.Point 2, .Pass .Exit), (Label.Point 3, .Pass .Exit)]⟩
    rfl Label.Entry [Bytecode.LdU32 7] rfl

/-! ### Claim theorems: concrete CFG construction -/

/-- C9: on the concrete 20-instruction while-loop program, `Cfg.new`
returns exactly the blocks `Entry = [0..4)`, `Point 4 = [4..7)`,
`Point 9 = [9..17)`, `Point 18 = [18..20)`, `Exit = []` and the edges
`Entry → Pass (Point 4)`, `Point 4 → WhileTrue (Point 9) (Point 18)`,
`Point 9 → LoopBack (Point 4)`, `Point 18 → Pass Exit`. -/
theorem cfg_while_loop_example :
    Cfg.new [Bytecode.LdU32 1, Bytecode.StLoc 1, Bytecode.LdU32 0, Bytecode.StLoc 2,
        Bytecode.CopyLoc 1, Bytecode.CopyLoc 0, Bytecode.Le, Bytecode.BrFalse 18,
        Bytecode.Branch 9, Bytecode.MoveLoc 2, Bytecode.CopyLoc 1, Bytecode.Add,
        Bytecode.StLoc 2, Bytecode.MoveLoc 1, Bytecode.LdU32 1, Bytecode.Add,
        Bytecode.StLoc 1, Bytecode.Branch 4, Bytecode.MoveLoc 2, Bytecode.Ret] =
      .ok ⟨[(Label.Entry,
              [Bytecode.LdU32 1, Bytecode.StLoc 1, Bytecode.LdU32 0, Bytecode.StLoc 2]),
            (Label.Point 4, [Bytecode.CopyLoc 1, Bytecode.CopyLoc 0, Bytecode.Le]),
            (Label.Point 9,
              [Bytecode.MoveLoc 2, Bytecode.CopyLoc 1, Bytecode.Add, Bytecode.StLoc 2,
               Bytecode.MoveLoc 1, Bytecode.LdU32 1, Bytecode.Add, Bytecode.StLoc 1]),
            (Label.Point 18, [Bytecode.MoveLoc 2, Bytecode.Ret]),
            (Label.Exit, [])],
           [(Label.Entry, .Pass (.Point 4)),
            (Label.Point 4, .WhileTrue (.Point 9) (.Point 18)),
            (Label.Point 9, .LoopBack (.Point 4)),
            (Label.Point 18, .Pass .Exit)]⟩ := by
  rfl

/-- C3 (code bug): on `[LdU32 1, Branch 3, Ret, LdU32 7]` the terminator
`Ret` at index 2 heads no block and follows the `Branch 3`, which cleared
`current`; the edge classifier silently skips it and `Cfg.new` succeeds —
the `UnexpectedBlockEnd` error, which the error type's own documentation
says is returned in this situation, is never raised by the
implementation. -/
theorem cfg_unexpected_block_end_not_raised :
    Cfg.new [Bytecode.LdU32 1, Bytecode.Branch 3, Bytecode.Ret, Bytecode.LdU32 7] =
      .ok ⟨[(Label.Entry, [Bytecode.LdU32 1]), (Label.Point 3, [Bytecode.LdU32 7]),
            (Label.Exit, [])],
           [(Label.Entry, .Pass (.Point 3)), (Label.Point 3, .Pass .Exit)]⟩ := by
  rfl

/-- C6 counterexample: a conditional branch whose destination equals its
own index fails with `SelfBranch`, not with `ConditionalJumpBack` as the
claim states for every `d ≤ i`. -/
theorem conditional_self_jump_counterexample :
    Cfg.new [Bytecode.LdU32 0, Bytecode.BrTrue 1] = .error .SelfBranch := by
  rfl

/-- C6 amended: `validate_conditional_jump` fails with
`ConditionalJumpBack` exactly when `dest < index`; at `dest = index` the
error is `SelfBranch` (or `RepeatConditionalBranch`), never
`ConditionalJumpBack`. -/
theorem validate_conditional_jumpback_iff (dest index : Nat) (bc : List Bytecode) :
    validate_conditional_jump dest index bc = .error .ConditionalJumpBack ↔
      dest < index := by
  unfold validate_conditional_jump
  by_cases h1 : dest < index
  · rw [if_pos h1]
    simp [h1]
  · rw [if_neg h1]
    constructor
    · intro h
      exfalso
      by_cases h2 : (bc.get? (index + 1)).any (fun b => isConditionalBranch b) = true
      · rw [if_pos h2] at h
        simp at h
      · rw [if_neg h2] at h
        unfold validate_unconditional_jump at h
        by_cases h3 : dest = index
        · rw [if_pos h3] at h
          simp at h
        · rw [if_neg h3] at h
          split at h
          · simp at h
          · split at h
            · simp at h
            · simp at h
    · intro h
      exact absurd h h1

/-! ### Claim theorems: back-edge promotion (C4) -/

theorem classifyInstr_backedge_eq (bc : List Bytecode) (i d : Nat)
    (edges : LMap OutgoingEdge) (l T F : Label) (hback : d < i)
    (hTF : lmapLookup (Label.new d) edges = some (.If T F)) :
    classifyInstr bc i (.Branch d) edges l =
      (match has_path (lmapErase (Label.new d) edges) T l,
             has_path (lmapErase (Label.new d) edges) F l with
       | true, true => .error .InvalidLoopHeader
       | false, false => .error .InvalidLoopHeader
       | true, false =>
         .ok (lmapInsert l (.LoopBack (Label.new d))
               (lmapInsert (Label.new d) (.WhileTrue T F)
                 (lmapErase (Label.new d) edges)), none)
       | false, true =>
         .ok (lmapInsert l (.LoopBack (Label.new d))
               (lmapInsert (Label.new d) (.WhileFalse F T)
                 (lmapErase (Label.new d) edges)), none)) := by
  simp only [classifyInstr]
  rw [if_pos hback, hTF]

theorem classifyInstr_backedge_notIf (bc : List Bytecode) (i d : Nat)
    (edges : LMap OutgoingEdge) (l : Label) (hback : d < i)
    (hno : ∀ T F, ¬ lmapLookup (Label.new d) edges = some (.If T F)) :
    classifyInstr bc i (.Branch d) edges l = .error .InvalidLoopHeader := by
  simp only [classifyInstr]
  rw [if_pos hback]

/-- C4: when the edge-classifier reaches an unconditional `Branch d` at
index `i` with `d < i` (a back-edge, the index heading no block) inside an
open block `l`, it requires the previously recorded edge of `Label.new d`
to be `If`, rewrites it in place to `WhileTrue T F` when `has_path` (over
the edges with the header's entry removed) reaches `l` from `T` but not
from `F`, to `WhileFalse F T` in the symmetric case, fails with
`InvalidLoopHeader` when the prior edge is not an `If` or when both or
neither path exists, and records `LoopBack (Label.new d)` as the edge of
`l`. -/
theorem edgeStep_backedge_promotion (bc : List Bytecode)
    (blocks : LMap (List Bytecode)) (edges : LMap OutgoingEdge)
    (l : Label) (i d : Nat) (hback : d < i)
    (hhead : lmapContains (Label.new i) blocks = false) :
    (∀ T F, lmapLookup (Label.new d) edges = some (.If T F) →
      (has_path (lmapErase (Label.new d) edges) T l = true →
        has_path (lmapErase (Label.new d) edges) F l = false →
        edgeStep bc blocks i (.Branch d) (edges, some l) =
          .ok (lmapInsert l (.LoopBack (Label.new d))
                (lmapInsert (Label.new d) (.WhileTrue T F)
                  (lmapErase (Label.new d) edges)), none)) ∧
      (has_path (lmapErase (Label.new d) edges) T l = false →
        has_path (lmapErase (Label.new d) edges) F l = true →
        edgeStep bc blocks i (.Branch d) (edges, some l) =
          .ok (lmapInsert l (.LoopBack (Label.new d))
                (lmapInsert (Label.new d) (.WhileFalse F T)
                  (lmapErase (Label.new d) edges)), none)) ∧
      (has_path (lmapErase (Label.new d) edges) T l =
          has_path (lmapErase (Label.new d) edges) F l →
        edgeStep bc blocks i (.Branch d) (edges, some l) =
          .error .InvalidLoopHeader)) ∧
    ((∀ T F, ¬ lmapLookup (Label.new d) edges = some (.If T F)) →
      edgeStep bc blocks i (.Branch d) (edges, some l) = .error .InvalidLoopHeader) := by
  have henter : enterBlock blocks i (edges, some l) = (edges, some l) := by
    unfold enterBlock
    rw [if_neg (show ¬ lmapContains (Label.new i) blocks = true by simp [hhead])]
  have hstep : edgeStep bc blocks i (.Branch d) (edges, some l) =
      classifyInstr bc i (.Branch d) edges l := by
    unfold edgeStep
    rw [henter]
  rw [hstep]
  constructor
  · intro T F hTF
    rw [classifyInstr_backedge_eq bc i d edges l T F hback hTF]
    refine ⟨?_, ?_, ?_⟩
    · intro h1 h2
      rw [h1, h2]
    · intro h1 h2
      rw [h1, h2]
    · intro h12
      cases hT : has_path (lmapErase (Label.new d) edges) T l
      · rw [hT] at h12
        rw [← h12]
      · rw [hT] at h12
        rw [← h12]
  · intro hno
    exact classifyInstr_backedge_notIf bc i d edges l hback hno

/-- Witness for C4: a concrete back-edge `Branch 0` at index 5 whose
header `Entry` holds `If (Point 2) (Point 3)`; only `Point 2` reaches the
back-edge block `Point 4`, so the header is promoted to `WhileTrue` and
the block gets a `LoopBack` edge. -/
theorem edgeStep_backedge_promotion_witness :
    edgeStep [] [] 5 (.Branch 0)
      ([(Label.Entry, .If (.Point 2) (.Point 3)),
        (Label.Point 2, .Pass (.Point 4))], some (.Point 4)) =
      .ok (lmapInsert (Label.Point 4) (.LoopBack (Label.new 0))
            (lmapInsert (Label.new 0) (.WhileTrue (.Point 2) (.Point 3))
              (lmapErase (Label.new 0)
                [(Label.Entry, .If (.Point 2) (.Point 3)),
                 (Label.Point 2, .Pass (.Point 4))])), none) := by
  have h := edgeStep_backedge_promotion [] []
    [(Label.Entry, .If (.Point 2) (.Point 3)), (Label.Point 2, .Pass (.Point 4))]
    (.Point 4) 5 0 (by decide) rfl
  exact (h.1 (.Point 2) (.Point 3) rfl).1 rfl rfl

/-! ### Claim theorems: the structured emitter -/

/-- C2 counterexample: at the CFG with blocks `{Entry = [], Point 1 =
[LdU32 5], Exit = []}` and edges `{Entry → WhileTrue (Point 1) Exit,
Point 1 → Pass Exit}`, the emitted `While` body is
`emit(cfg, body_start, stop) = [Push 5]`, while the claim's
`emit(cfg, body_start, current)` fails with a missing-edge error (its
recursion walks past `Exit`, which has no outgoing edge); the body the
code emits is therefore not `emit(cfg, body_start, current)`. -/
theorem compile_whileTrue_counterexample :
    compile_with_cfg 9
      ⟨[(Label.Entry, []), (Label.Point 1, [Bytecode.LdU32 5]), (Label.Exit, [])],
       [(Label.Entry, .WhileTrue (.Point 1) .Exit), (Label.Point 1, .Pass .Exit)]⟩
      ⟨[], []⟩ .Entry .Exit =
      .ok [.While [.instruction (.PushU32 5)]] ∧
    compile_with_cfg 9
      ⟨[(Label.Entry, []), (Label.Point 1, [Bytecode.LdU32 5]), (Label.Exit, [])],
       [(Label.Entry, .WhileTrue (.Point 1) .Exit), (Label.Point 1, .Pass .Exit)]⟩
      ⟨[], []⟩ (.Point 1) .Entry =
      .error .missingEdge := by
  constructor
  · rfl
  · rfl

/-- C2 amended: when the edge of `current` is `WhileTrue`, the emitter
emits the translated block, then a `While` node whose body is
`emit(cfg, body_start, stop)` — bounded by the outer `stop`, not by
`current`; the body recursion instead terminates at the `LoopBack` arm —
and then appends `emit(cfg, after, stop)` after the `While` node. -/
theorem compile_whileTrue_emission (fuel : Nat) (cfg : Cfg)
    (state : CompilerState) (cur stop body_start after : Label)
    (blk : List Bytecode) (hne : ¬ cur = stop)
    (hblk : lmapLookup cur cfg.blocks = some blk)
    (hedge : lmapLookup cur cfg.edges = some (.WhileTrue body_start after)) :
    compile_with_cfg (fuel + 1) cfg state cur stop =
      (match compile_body state blk [] with
       | .error e => .error e
       | .ok nodes =>
         match compile_with_cfg fuel cfg state body_start stop with
         | .error e => .error e
         | .ok body =>
           match compile_with_cfg fuel cfg state after stop with
           | .error e => .error e
           | .ok remainder => .ok (nodes ++ [.While body] ++ remainder)) := by
  simp only [compile_with_cfg]
  rw [if_neg hne, hblk, hedge]

/-- Witness for C2 (amended) at the counterexample CFG: the equation
instantiated at `fuel = 6`, `cur = Entry`, `stop = Exit`. -/
theorem compile_whileTrue_emission_witness :
    compile_with_cfg 7
      ⟨[(Label.Entry, []), (Label.Point 1, [Bytecode.LdU32 5]), (Label.Exit, [])],
       [(Label.Entry, .WhileTrue (.Point 1) .Exit), (Label.Point 1, .Pass .Exit)]⟩
      ⟨[], []⟩ .Entry .Exit =
      .ok [.While [.instruction (.PushU32 5)]] := by
  have h := compile_whileTrue_emission 6
    ⟨[(Label.Entry, []), (Label.Point 1, [Bytecode.LdU32 5]), (Label.Exit, [])],
     [(Label.Entry, .WhileTrue (.Point 1) .Exit), (Label.Point 1, .Pass .Exit)]⟩
    ⟨[], []⟩ .Entry .Exit (.Point 1) .Exit []
    (by intro h; cases h) rfl rfl
  exact h.trans rfl

/-- C1 (code bug): on the bytecode
`[LdU32 0, BrTrue 4, LdU32 2, Branch 5, LdU32 4, LdU32 5, Ret]` the CFG
has `Entry → If (Point 4) (Point 2)` with both branches reconverging at
the join `Point 5` (block `[LdU32 5, Ret]`), yet the emission from
`Entry` to `Exit` produces only `[Push 0, IfElse [Push 4] [Push 2]]`:
nothing is appended after the `IfElse` node, so the join block's code
(`Push 5`) appears zero times in the output instead of once. -/
theorem compile_if_drops_join :
    (match Cfg.new [Bytecode.LdU32 0, Bytecode.BrTrue 4, Bytecode.LdU32 2,
        Bytecode.Branch 5, Bytecode.LdU32 4, Bytecode.LdU32 5, Bytecode.Ret] with
     | .error _ => none
     | .ok cfg => some (compile_with_cfg 20 cfg ⟨[], []⟩ .Entry .Exit)) =
      some (.ok [.instruction (.PushU32 0),
        .IfElse [.instruction (.PushU32 4)] [.instruction (.PushU32 2)]]) := by
  rfl

/-! ### Claim theorems: function compilation -/

/-- C10 counterexample: a function definition with no body whose handle
index is not in the compiler state fails with a missing-handle error
instead of succeeding. -/
theorem compile_function_missing_handle_counterexample :
    compile_function 9 ⟨0, false, none⟩ ⟨[], []⟩ =
      .error .missingFunctionHandle := by
  rfl

/-- C10 amended: for every function definition whose `code` is `none` and
whose handle index resolves in the compiler state, `compile_function`
succeeds with the function's name, zero locals and an empty body. -/
theorem compile_function_no_code (fuel : Nat) (func_def : FunctionDefinition)
    (state : CompilerState) (f : MFunction)
    (hf : state.functions.get? func_def.function = some f)
    (hcode : func_def.code = none) :
    compile_function fuel func_def state = .ok ⟨f.name, none, 0, [], false⟩ := by
  unfold compile_function
  rw [hf, hcode]
  rfl

/-- Witness for C10 (amended) at a concrete body-less function. -/
theorem compile_function_no_code_witness :
    compile_function 3 ⟨0, true, none⟩ ⟨[], [⟨"main_fn", [], []⟩]⟩ =
      .ok ⟨"main_fn", none, 0, [], false⟩ :=
  compile_function_no_code 3 ⟨0, true, none⟩ ⟨[], [⟨"main_fn", [], []⟩]⟩
    ⟨"main_fn", [], []⟩ rfl rfl

set_option maxRecDepth 8000 in
/-- Sanity check of `has_path`'s fuel on its worst realizable shape: on a
28-instruction program whose loop body is a 7-level duplicate-`If` chain
(`BrTrue d; Branch d` pairs, so each block's edge is `If (Point d)
(Point d)` and BFS queue occupancy doubles per level, with the back-edge
block found at pop 128), the back-edge promotion still succeeds and
`Cfg.new` returns the `WhileTrue` header, as the source's unbounded BFS
does. -/
theorem cfg_duplicate_if_chain_example :
    Cfg.new [Bytecode.LdU32 1, Bytecode.BrTrue 3, Bytecode.Branch 26,
        Bytecode.LdU32 0, Bytecode.BrTrue 6, Bytecode.Branch 6,
        Bytecode.LdU32 0, Bytecode.BrTrue 9, Bytecode.Branch 9,
        Bytecode.LdU32 0, Bytecode.BrTrue 12, Bytecode.Branch 12,
        Bytecode.LdU32 0, Bytecode.BrTrue 15, Bytecode.Branch 15,
        Bytecode.LdU32 0, Bytecode.BrTrue 18, Bytecode.Branch 18,
        Bytecode.LdU32 0, Bytecode.BrTrue 21, Bytecode.Branch 21,
        Bytecode.LdU32 0, Bytecode.BrTrue 24, Bytecode.Branch 24,
        Bytecode.LdU32 0, Bytecode.Branch 0,
        Bytecode.LdU32 2, Bytecode.Ret] =
      .ok ⟨[(Label.Entry, [Bytecode.LdU32 1]),
            (Label.Point 3, [Bytecode.LdU32 0]),
            (Label.Point 6, [Bytecode.LdU32 0]),
            (Label.Point 9, [Bytecode.LdU32 0]),
            (Label.Point 12, [Bytecode.LdU32 0]),
            (Label.Point 15, [Bytecode.LdU32 0]),
            (Label.Point 18, [Bytecode.LdU32 0]),
            (Label.Point 21, [Bytecode.LdU32 0]),
            (Label.Point 24, [Bytecode.LdU32 0]),
            (Label.Point 26, [Bytecode.LdU32 2, Bytecode.Ret]),
            (Label.Exit, [])],
           [(Label.Entry, .WhileTrue (.Point 3) (.Point 26)),
            (Label.Point 3, .If (.Point 6) (.Point 6)),
            (Label.Point 6, .If (.Point 9) (.Point 9)),
            (Label.Point 9, .If (.Point 12) (.Point 12)),
            (Label.Point 12, .If (.Point 15) (.Point 15)),
            (Label.Point 15, .If (.Point 18) (.Point 18)),
            (Label.Point 18, .If (.Point 21) (.Point 21)),
            (Label.Point 21, .If (.Point 24) (.Point 24)),
            (Label.Point 24, .LoopBack .Entry),
            (Label.Point 26, .Pass .Exit)]⟩ := by
  rfl
